import Mathlib

/-!
Verification of the text-overlay compositor of the Articl2Video repository.

The development shallowly embeds the overlay engine found in
`src/image_utils.py`, `src/main.py` (`add_text_to_image`) and
`src/text_overlay.py` (`add_text_to_image_old`):

* `calculate_shadow`     — `image_utils.calculate_shadow`
* `adjustMargin` et al.  — the margin computation of `add_text_to_image`
* `smart_wrap_text`      — the pixel word wrapper (`image_utils.smart_wrap_text`,
                           duplicated verbatim inside `main.add_text_to_image`)
* `fitLoopGo`            — the adaptive font-fit loop of `add_text_to_image`
* `greenParts`           — the quoted-keyword run splitter of `main.add_text_to_image`
* `borderSamples` etc.   — the frame-border detector of `add_text_to_image`
* `add_text_assets`      — the asset-loading / error-propagation skeleton

Modelling conventions:
* Python floats are modelled as exact rationals (the constants 0.04, 0.055,
  0.9, 1.1, 1.2, 0.6 … are exactly 4/100, 55/1000, …); `int(x)` for `x ≥ 0`
  is the floor, modelled by `pyInt` (truncation toward zero) or by natural
  division where the operands are natural numbers.
* The PIL text measurer (`draw.textbbox`/`font.getlength`) is modelled by an
  arbitrary per-glyph advance-width table `cw : Char → ℕ`, widths of strings
  being sums of glyph advances (`measureText`), as the spec describes
  ("measured glyph advances").
* Exceptions are modelled by `Option` (a failing pixel read / image decode is
  `none`) and `Except` for whole-call outcomes.
-/

/-! ### Shadow calculation (`image_utils.calculate_shadow`) -/

/-- Python `int()` on a rational: truncation toward zero. -/
def pyInt (q : ℚ) : ℤ :=
  if 0 ≤ q then ⌊q⌋ else -⌊-q⌋

/-- Embedding of `image_utils.calculate_shadow`:
`base_offset = font_size * 0.04`;
`shadow_offset = max(1, int(base_offset * text_prominence))`;
`opacity_scale = min(1.0, max(0.6, 1.1 - shadow_offset / 10))`;
`shadow_opacity = int(140 * opacity_scale)`. -/
def calculate_shadow (font_size : ℕ) (text_prominence : ℚ) : ℤ × ℤ :=
  let base_offset : ℚ := (font_size : ℚ) * (4 / 100)
  let shadow_offset : ℤ := max 1 (pyInt (base_offset * text_prominence))
  let opacity_scale : ℚ := min 1 (max (3 / 5) (11 / 10 - (shadow_offset : ℚ) / 10))
  let shadow_opacity : ℤ := pyInt (140 * opacity_scale)
  (shadow_offset, shadow_opacity)

/-- The shadow formula exactly as the spec words it (§4.4a): `round` in place
of the code's `int` truncation, both for the offset and for the opacity. -/
def shadow_spec (font_size : ℕ) (text_prominence : ℚ) : ℤ × ℤ :=
  let off : ℤ := max 1 (round ((font_size : ℚ) * (4 / 100) * text_prominence))
  (off, round ((140 : ℚ) * min 1 (max (3 / 5) (11 / 10 - (off : ℚ) / 10))))

theorem pyInt_intCast (m : ℤ) : pyInt (m : ℚ) = m := by
  unfold pyInt
  by_cases h : (0 : ℚ) ≤ (m : ℚ)
  · rw [if_pos h, Int.floor_intCast]
  · rw [if_neg h, show -((m : ℤ) : ℚ) = (((-m : ℤ)) : ℚ) by push_cast; ring,
      Int.floor_intCast, neg_neg]

theorem pyInt_eq_round_intCast (m : ℤ) : pyInt (m : ℚ) = round ((m : ℚ)) := by
  rw [pyInt_intCast, round_intCast]

/-! ### Margin computation (`add_text_to_image`, main.py lines 568–581) -/

/-- The conditional margin adjustment
`if frame_border_width > 0: m = max(m, frame_border_width + extra)`. -/
def adjustMargin (base extra b : ℕ) : ℕ :=
  if 0 < b then max base (b + extra) else base

/-- `left_margin = int(width*0.15) if frame_exists else int(width*0.08)`,
then `max(left_margin, frame_border_width + 30)` when the border is positive. -/
def leftMarginOf (w : ℕ) (frame_exists : Bool) (b : ℕ) : ℕ :=
  adjustMargin (if frame_exists then w * 15 / 100 else w * 8 / 100) 30 b

/-- `right_margin = int(width*0.20) if frame_exists else int(width*0.10)`,
then `max(right_margin, frame_border_width + 50)` when the border is positive. -/
def rightMarginOf (w : ℕ) (frame_exists : Bool) (b : ℕ) : ℕ :=
  adjustMargin (if frame_exists then w * 20 / 100 else w * 10 / 100) 50 b

/-- `bottom_margin = int(height*0.15) if frame_exists else int(height*0.08)`,
then `max(bottom_margin, frame_border_width + 30)` when the border is positive. -/
def bottomMarginOf (h : ℕ) (frame_exists : Bool) (b : ℕ) : ℕ :=
  adjustMargin (if frame_exists then h * 15 / 100 else h * 8 / 100) 30 b

theorem adjustMargin_mono (base extra : ℕ) {b1 b2 : ℕ} (h : b1 ≤ b2) :
    adjustMargin base extra b1 ≤ adjustMargin base extra b2 := by
  unfold adjustMargin
  by_cases h1 : 0 < b1
  · have h2 : 0 < b2 := lt_of_lt_of_le h1 h
    simp only [h1, h2, if_true]
    exact max_le_max le_rfl (Nat.add_le_add_right h _)
  · simp only [h1, if_false]
    by_cases h2 : 0 < b2
    · simp only [h2, if_true]
      exact le_max_left _ _
    · simp [h2]

/-- C7: for a fixed canvas size and frame flag the computed left, right and
bottom margins are monotonically non-decreasing in the detected frame border
width. -/
theorem margins_mono_in_border (w h : ℕ) (frame_exists : Bool) {b1 b2 : ℕ}
    (hb : b1 ≤ b2) :
    leftMarginOf w frame_exists b1 ≤ leftMarginOf w frame_exists b2 ∧
    rightMarginOf w frame_exists b1 ≤ rightMarginOf w frame_exists b2 ∧
    bottomMarginOf h frame_exists b1 ≤ bottomMarginOf h frame_exists b2 :=
  ⟨adjustMargin_mono _ _ hb, adjustMargin_mono _ _ hb, adjustMargin_mono _ _ hb⟩

/-- Witness for C7 at the canonical 1080×1920 canvas with border widths 10 ≤ 50. -/
theorem margins_mono_in_border_witness :
    (10 : ℕ) ≤ 50 ∧ leftMarginOf 1080 true 10 ≤ leftMarginOf 1080 true 50 :=
  ⟨by decide, (margins_mono_in_border 1080 1920 true (by decide)).1⟩

theorem clampedScale_integral {o : ℤ} (ho : 1 ≤ o) :
    ∃ m : ℤ, (140 : ℚ) * min 1 (max (3 / 5) (11 / 10 - (o : ℚ) / 10)) = (m : ℚ) := by
  rcases le_or_lt 5 o with h5 | h5
  · have ho5 : (5 : ℚ) ≤ (o : ℚ) := by exact_mod_cast h5
    have hmax : (11 / 10 - (o : ℚ) / 10) ≤ 3 / 5 := by linarith
    refine ⟨84, ?_⟩
    rw [max_eq_left hmax, min_eq_right (by norm_num : (3 / 5 : ℚ) ≤ 1)]
    norm_num
  · interval_cases o
    · exact ⟨140, by norm_num⟩
    · exact ⟨126, by norm_num [min_eq_right, max_eq_right]⟩
    · exact ⟨112, by norm_num [min_eq_right, max_eq_right]⟩
    · exact ⟨98, by norm_num [min_eq_right, max_eq_right]⟩

/-- C4 counterexample: at `font_size = 49`, `prominence = 1.0` the code's
offset is `max(1, int(1.96)) = 1` while the spec formula
`max(1, round(1.96)) = 2`, so the claimed `round`-based formula is not what
`calculate_shadow` returns. -/
theorem calculate_shadow_ne_spec : calculate_shadow 49 1 ≠ shadow_spec 49 1 := by
  have h1 : (calculate_shadow 49 1).1 = 1 := by
    show max 1 (pyInt ((49 : ℚ) * (4 / 100) * 1)) = 1
    have hfl : pyInt ((49 : ℚ) * (4 / 100) * 1) = 1 := by
      unfold pyInt
      rw [if_pos (by norm_num), Int.floor_eq_iff]
      norm_num
    rw [hfl]
    exact max_self 1
  have h2 : (shadow_spec 49 1).1 = 2 := by
    show max 1 (round ((49 : ℚ) * (4 / 100) * 1)) = 2
    have hrd : round ((49 : ℚ) * (4 / 100) * 1) = 2 := by
      rw [round_eq, Int.floor_eq_iff]
      norm_num
    rw [hrd]
    exact max_eq_right (by norm_num)
  intro h
  rw [h, h2] at h1
  exact absurd h1 (by norm_num)

/-- C4 amended: the offset uses Python `int` truncation (not `round`):
`offset = max(1, int(fontSize × 0.04 × prominence))`; the opacity, computed
from that offset, does satisfy the spec's `round` form
`opacity = round(140 × clamp(1.1 − offset/10, 0.6, 1.0))`, because
`140 × clamp(…)` is always an integer. -/
theorem calculate_shadow_amended (fs : ℕ) (prom : ℚ) :
    (calculate_shadow fs prom).1 = max 1 (pyInt ((fs : ℚ) * (4 / 100) * prom)) ∧
    (calculate_shadow fs prom).2 =
      round ((140 : ℚ) *
        min 1 (max (3 / 5) (11 / 10 - (((calculate_shadow fs prom).1 : ℤ) : ℚ) / 10))) := by
  constructor
  · rfl
  · have ho : 1 ≤ (calculate_shadow fs prom).1 := le_max_left _ _
    obtain ⟨m, hm⟩ := clampedScale_integral ho
    show pyInt ((140 : ℚ) *
        min 1 (max (3 / 5) (11 / 10 - ((calculate_shadow fs prom).1 : ℚ) / 10))) = _
    rw [hm, pyInt_intCast, round_intCast]

theorem shadow_opacity_bounds (fs : ℕ) (prom : ℚ) :
    84 ≤ (calculate_shadow fs prom).2 ∧ (calculate_shadow fs prom).2 ≤ 140 := by
  set o : ℤ := (calculate_shadow fs prom).1 with ho
  set c : ℚ := min 1 (max (3 / 5) (11 / 10 - (o : ℚ) / 10)) with hc
  have hc1 : c ≤ 1 := min_le_left _ _
  have hc2 : (3 / 5 : ℚ) ≤ c := le_min (by norm_num) (le_max_left _ _)
  have hq0 : (0 : ℚ) ≤ 140 * c := by linarith
  have hop : (calculate_shadow fs prom).2 = ⌊(140 : ℚ) * c⌋ := by
    show pyInt ((140 : ℚ) * c) = _
    unfold pyInt
    rw [if_pos hq0]
  constructor
  · rw [hop]
    exact Int.le_floor.mpr (by push_cast; linarith)
  · rw [hop]
    have h140 : (140 : ℚ) * c ≤ ((140 : ℤ) : ℚ) := by push_cast; linarith
    exact le_trans (Int.floor_le_floor h140) (le_of_eq (Int.floor_intCast 140))

/-- C10: for font size ≥ 1 and prominence in {1.0, 1.2} the shadow offset is
at least 1 pixel and the opacity lies in [84, 140]. -/
theorem shadow_invariants (fs : ℕ) (prom : ℚ) (hfs : 1 ≤ fs)
    (hp : prom = 1 ∨ prom = 6 / 5) :
    1 ≤ (calculate_shadow fs prom).1 ∧
    84 ≤ (calculate_shadow fs prom).2 ∧ (calculate_shadow fs prom).2 ≤ 140 :=
  ⟨le_max_left _ _, (shadow_opacity_bounds fs prom).1, (shadow_opacity_bounds fs prom).2⟩

/-- Witness for C10 at `font_size = 46`, `prominence = 1`. -/
theorem shadow_invariants_witness :
    (1 ≤ 46 ∧ ((1 : ℚ) = 1 ∨ (1 : ℚ) = 6 / 5)) ∧
    84 ≤ (calculate_shadow 46 1).2 :=
  ⟨⟨by decide, Or.inl rfl⟩, (shadow_invariants 46 1 (by decide) (Or.inl rfl)).2.1⟩

/-! ### Adaptive font-fit loop (`add_text_to_image`, main.py lines 623–701)

The loop `while text_too_large and font_size > min_font_size and attempt < 5`
is embedded with the remaining attempt budget (`5 - attempt`) as explicit
fuel.  The pixel wrapper's dependence on the font at the current size is
abstracted to `wrapLen : ℕ → ℕ`, the number of wrapped lines as a function of
the font size.  The float test
`len(wrapped_lines) * font_size * 1.1 + font_size * 1.2 <= max_text_height`
is scaled by 10 to the exact integer test `len*fs*11 + fs*12 ≤ 10*maxH`
(`maxH10` below is `10 * max_text_height`). -/

/-- One state of the fit loop: returns `(final_font_size, attempts_used)`.
`fuel` is the remaining attempt budget (`5 - attempt`), `fs` the current
`font_size`; `int(font_size * 0.9)` is `fs * 9 / 10`. -/
def fitLoopGo (wrapLen : ℕ → ℕ) (maxH10 : ℤ) : ℕ → ℕ → ℕ × ℕ
  | 0, fs => (fs, 0)
  | fuel + 1, fs =>
    if 30 < fs then
      if (wrapLen fs * fs * 11 + fs * 12 : ℤ) ≤ maxH10 then (fs, 1)
      else
        let r := fitLoopGo wrapLen maxH10 fuel (fs * 9 / 10)
        (r.1, r.2 + 1)
    else (fs, 0)

/-- `initial_font_size = max(int(width * 0.055), 46)`. -/
def initialFontSize (w : ℕ) : ℕ := max (w * 55 / 1000) 46

/-- The whole fit loop of `add_text_to_image`: start at the initial size with
an attempt budget of 5. -/
def fitResult (wrapLen : ℕ → ℕ) (maxH10 : ℤ) (w : ℕ) : ℕ × ℕ :=
  fitLoopGo wrapLen maxH10 5 (initialFontSize w)

theorem fitLoopGo_le (wrapLen : ℕ → ℕ) (maxH10 : ℤ) :
    ∀ (fuel fs : ℕ), (fitLoopGo wrapLen maxH10 fuel fs).1 ≤ fs := by
  intro fuel
  induction fuel with
  | zero => intro fs; exact le_rfl
  | succ n ih =>
    intro fs
    unfold fitLoopGo
    by_cases h30 : 30 < fs
    · by_cases hfit : (wrapLen fs * fs * 11 + fs * 12 : ℤ) ≤ maxH10
      · simp [h30, hfit]
      · simp only [h30, hfit, if_true, if_false]
        calc (fitLoopGo wrapLen maxH10 n (fs * 9 / 10)).1
            ≤ fs * 9 / 10 := ih _
          _ ≤ fs * 10 / 10 := Nat.div_le_div_right (Nat.mul_le_mul_left fs (by norm_num))
          _ = fs := Nat.mul_div_cancel fs (by norm_num)
    · simp [h30]

theorem fitLoopGo_ge (wrapLen : ℕ → ℕ) (maxH10 : ℤ) :
    ∀ (fuel fs : ℕ), 27 ≤ fs → 27 ≤ (fitLoopGo wrapLen maxH10 fuel fs).1 := by
  intro fuel
  induction fuel with
  | zero => intro fs h; exact h
  | succ n ih =>
    intro fs h
    unfold fitLoopGo
    by_cases h30 : 30 < fs
    · by_cases hfit : (wrapLen fs * fs * 11 + fs * 12 : ℤ) ≤ maxH10
      · simpa [h30, hfit] using h
      · simp only [h30, hfit, if_true, if_false]
        refine ih _ ?_
        have h31 : 31 ≤ fs := h30
        calc (27 : ℕ) = 279 / 10 := by norm_num
          _ ≤ fs * 9 / 10 := Nat.div_le_div_right (by omega)
    · simpa [h30] using h

/-- C1 counterexample: with a single wrapped line that never fits
(`max_text_height = 0`) on an 800-px-wide canvas, the loop runs
46 → 41 → 36 → 32 → 28 and exits with a final font size of 28 px, strictly
below `min_font_size = 30`; the drawing code then uses 28 px. -/
theorem fit_final_size_below_min :
    ¬ (30 ≤ (fitResult (fun _ => 1) 0 800).1) := by decide

/-- C1 amended: the final size of the fit loop always lies in
`[27, initialFontSizePx]` — the upper bound of the claim holds, but the lower
bound is 27 (= `int(31 * 0.9)`), not `minFontSizePx = 30`: the loop only
re-checks `font_size > 30` after shrinking, so one shrink step can land below
30, though never below 27. -/
theorem fit_final_size_bounds (wrapLen : ℕ → ℕ) (maxH10 : ℤ) (w : ℕ) :
    27 ≤ (fitResult wrapLen maxH10 w).1 ∧
    (fitResult wrapLen maxH10 w).1 ≤ initialFontSize w :=
  ⟨fitLoopGo_ge wrapLen maxH10 5 _
     (le_trans (by norm_num : (27 : ℕ) ≤ 46) (le_max_right (w * 55 / 1000) 46)),
   fitLoopGo_le wrapLen maxH10 5 _⟩

theorem fitLoopGo_attempts_le (wrapLen : ℕ → ℕ) (maxH10 : ℤ) :
    ∀ (fuel fs : ℕ), (fitLoopGo wrapLen maxH10 fuel fs).2 ≤ fuel := by
  intro fuel
  induction fuel with
  | zero => intro fs; exact le_rfl
  | succ n ih =>
    intro fs
    unfold fitLoopGo
    by_cases h30 : 30 < fs
    · by_cases hfit : (wrapLen fs * fs * 11 + fs * 12 : ℤ) ≤ maxH10
      · simp [h30, hfit]
      · simp only [h30, hfit, if_true, if_false]
        exact Nat.succ_le_succ (ih _)
    · simp [h30]

/-- C9: the fit loop performs at most 5 attempts and terminates (it is a
total function in this embedding); the attempt counter of `fitResult` never
exceeds 5, for every wrapper behavior, height budget and canvas width. -/
theorem fit_attempts_bounded (wrapLen : ℕ → ℕ) (maxH10 : ℤ) (w : ℕ) :
    (fitResult wrapLen maxH10 w).2 ≤ 5 :=
  fitLoopGo_attempts_le wrapLen maxH10 5 _

/-! ### Pixel word wrapper (`image_utils.smart_wrap_text`, also duplicated
verbatim inside `main.add_text_to_image`)

Text is a `List Char`; Python `text.split()` (split on whitespace runs,
dropping empties) is `pySplit`; `" ".join(current_line)` is `joinWords`.
The PIL measurer is the glyph-advance sum `measureText cw`. -/

/-- Pixel width of a string: sum of per-glyph advance widths. -/
def measureText (cw : Char → ℕ) (s : List Char) : ℕ := (s.map cw).sum

/-- `" ".join(words)`. -/
def joinWords : List (List Char) → List Char
  | [] => []
  | [w] => w
  | w :: ws => w ++ ' ' :: joinWords ws

/-- Helper of Python `str.split()`: accumulate the current word (reversed). -/
def pySplitGo : List Char → List Char → List (List Char)
  | [], acc => if acc = [] then [] else [acc.reverse]
  | c :: cs, acc =>
    if c.isWhitespace then
      if acc = [] then pySplitGo cs [] else acc.reverse :: pySplitGo cs []
    else pySplitGo cs (c :: acc)

/-- Python `str.split()` with no argument: split on whitespace runs. -/
def pySplit (s : List Char) : List (List Char) := pySplitGo s []

/-- `word_with_space = word + " " if current_line else word`, measured:
the width charged for appending `w` to the current line. -/
def wordWidth (cw : Char → ℕ) (curr : List (List Char)) (w : List Char) : ℕ :=
  if curr = [] then measureText cw w else measureText cw (w ++ [' '])

/-- The greedy wrap loop of `smart_wrap_text`, keeping lines as word groups:
`curr` is `current_line`, `currW` is `current_width`.  On overflow with a
non-empty current line the line is flushed and the word starts a new line
whose width is the word measured alone (`draw.textbbox(word)[2]`). -/
def smartWrapGo (cw : Char → ℕ) (maxW : ℕ) :
    List (List Char) → List (List Char) → ℕ → List (List (List Char))
  | [], curr, _ => if curr = [] then [] else [curr]
  | w :: ws, curr, currW =>
    if curr ≠ [] ∧ maxW < currW + wordWidth cw curr w then
      curr :: smartWrapGo cw maxW ws [w] (measureText cw w)
    else
      smartWrapGo cw maxW ws (curr ++ [w]) (currW + wordWidth cw curr w)

/-- Embedding of `image_utils.smart_wrap_text`: split into words, run the
greedy loop from an empty line, join each produced group with spaces. -/
def smart_wrap_text (cw : Char → ℕ) (maxW : ℕ) (text : List Char) :
    List (List Char) :=
  (smartWrapGo cw maxW (pySplit text) [] 0).map joinWords

theorem measureText_append (cw : Char → ℕ) (a b : List Char) :
    measureText cw (a ++ b) = measureText cw a + measureText cw b := by
  simp [measureText]

theorem measureText_append_cons (cw : Char → ℕ) (a : List Char) (x : Char)
    (b : List Char) :
    measureText cw (a ++ x :: b) = measureText cw a + cw x + measureText cw b := by
  simp [measureText]
  omega

theorem joinWords_cons (w : List Char) (ws : List (List Char)) (h : ws ≠ []) :
    joinWords (w :: ws) = w ++ ' ' :: joinWords ws := by
  cases ws with
  | nil => exact absurd rfl h
  | cons w2 ws2 => rfl

theorem measureText_joinWords_append (cw : Char → ℕ) (curr : List (List Char))
    (w : List Char) (h : curr ≠ []) :
    measureText cw (joinWords (curr ++ [w])) =
      measureText cw (joinWords curr) + (cw ' ' + measureText cw w) := by
  induction curr with
  | nil => exact absurd rfl h
  | cons c cs ih =>
    cases cs with
    | nil =>
      show measureText cw (joinWords [c, w]) = _
      rw [joinWords_cons c [w] (by simp)]
      show measureText cw (c ++ ' ' :: w) = measureText cw c + (cw ' ' + measureText cw w)
      rw [measureText_append_cons]
      omega
    | cons c2 cs2 =>
      have h1 : (c :: c2 :: cs2) ++ [w] = c :: ((c2 :: cs2) ++ [w]) := rfl
      rw [h1, joinWords_cons c _ (by simp), joinWords_cons c _ (by simp),
        measureText_append_cons, measureText_append_cons, ih (by simp)]
      omega

theorem pySplitGo_words :
    ∀ (s acc : List Char), (∀ c ∈ acc, c.isWhitespace = false) →
      ∀ w ∈ pySplitGo s acc, w ≠ [] ∧ ∀ c ∈ w, c.isWhitespace = false := by
  intro s
  induction s with
  | nil =>
    intro acc hacc w hw
    by_cases h : acc = []
    · simp [pySplitGo, h] at hw
    · simp only [pySplitGo, h, if_false, List.mem_singleton] at hw
      subst hw
      refine ⟨by simpa using h, ?_⟩
      intro c hc
      exact hacc c (List.mem_reverse.mp hc)
  | cons c cs ih =>
    intro acc hacc w hw
    by_cases hws : c.isWhitespace
    · by_cases h : acc = []
      · rw [show pySplitGo (c :: cs) acc = pySplitGo cs [] by
          simp [pySplitGo, hws, h]] at hw
        exact ih [] (by simp) w hw
      · rw [show pySplitGo (c :: cs) acc = acc.reverse :: pySplitGo cs [] by
          simp [pySplitGo, hws, h]] at hw
        rcases List.mem_cons.mp hw with hw | hw
        · subst hw
          refine ⟨by simpa using h, ?_⟩
          intro x hx
          exact hacc x (List.mem_reverse.mp hx)
        · exact ih [] (by simp) w hw
    · rw [show pySplitGo (c :: cs) acc = pySplitGo cs (c :: acc) by
        simp [pySplitGo, hws]] at hw
      refine ih (c :: acc) ?_ w hw
      intro x hx
      rcases List.mem_cons.mp hx with rfl | hx
      · simpa using hws
      · exact hacc x hx

theorem pySplit_words (s : List Char) :
    ∀ w ∈ pySplit s, w ≠ [] ∧ ∀ c ∈ w, c.isWhitespace = false :=
  pySplitGo_words s [] (by simp)

theorem pySplitGo_nonspace_append :
    ∀ (w rest acc : List Char), (∀ c ∈ w, c.isWhitespace = false) →
      pySplitGo (w ++ rest) acc = pySplitGo rest (w.reverse ++ acc) := by
  intro w
  induction w with
  | nil => intro rest acc _; simp
  | cons c cs ih =>
    intro rest acc h
    have hc : c.isWhitespace = false := h c (by simp)
    show pySplitGo (c :: (cs ++ rest)) acc = _
    rw [show pySplitGo (c :: (cs ++ rest)) acc = pySplitGo (cs ++ rest) (c :: acc) by
      simp [pySplitGo, hc]]
    rw [ih rest (c :: acc) (fun x hx => h x (by simp [hx]))]
    simp

theorem pySplit_joinWords :
    ∀ (ws : List (List Char)), ws ≠ [] →
      (∀ w ∈ ws, w ≠ [] ∧ ∀ c ∈ w, c.isWhitespace = false) →
      pySplit (joinWords ws) = ws := by
  intro ws
  induction ws with
  | nil => intro h; exact absurd rfl h
  | cons w ws2 ih =>
    intro _ hws
    have hw := hws w (by simp)
    cases ws2 with
    | nil =>
      show pySplit (joinWords [w]) = [w]
      show pySplitGo w [] = [w]
      have h1 := pySplitGo_nonspace_append w [] [] hw.2
      rw [List.append_nil] at h1
      rw [h1]
      simp [pySplitGo, hw.1]
    | cons w2 ws3 =>
      rw [joinWords_cons w _ (by simp)]
      show pySplitGo (w ++ ' ' :: joinWords (w2 :: ws3)) [] = _
      rw [pySplitGo_nonspace_append w _ [] hw.2, List.append_nil]
      rw [show pySplitGo (' ' :: joinWords (w2 :: ws3)) w.reverse =
          w.reverse.reverse :: pySplitGo (joinWords (w2 :: ws3)) [] by
        simp [pySplitGo, hw.1]]
      rw [List.reverse_reverse]
      have := ih (by simp) (fun x hx => hws x (by simp [hx]))
      show w :: pySplit (joinWords (w2 :: ws3)) = _
      rw [this]

theorem smartWrapGo_join (cw : Char → ℕ) (maxW : ℕ) :
    ∀ (ws curr : List (List Char)) (currW : ℕ),
      (smartWrapGo cw maxW ws curr currW).flatten = curr ++ ws := by
  intro ws
  induction ws with
  | nil =>
    intro curr currW
    by_cases h : curr = [] <;> simp [smartWrapGo, h]
  | cons w ws2 ih =>
    intro curr currW
    by_cases hb : curr ≠ [] ∧ maxW < currW + wordWidth cw curr w
    · rw [show smartWrapGo cw maxW (w :: ws2) curr currW =
          curr :: smartWrapGo cw maxW ws2 [w] (measureText cw w) by
        simp [smartWrapGo, hb]]
      rw [List.flatten_cons, ih]
      simp
    · rw [show smartWrapGo cw maxW (w :: ws2) curr currW =
          smartWrapGo cw maxW ws2 (curr ++ [w]) (currW + wordWidth cw curr w) by
        simp only [smartWrapGo, if_neg hb]]
      rw [ih]
      simp

theorem smartWrapGo_mem (cw : Char → ℕ) (maxW : ℕ) :
    ∀ (ws curr : List (List Char)) (currW : ℕ) (g : List (List Char)),
      g ∈ smartWrapGo cw maxW ws curr currW →
      g ≠ [] ∧ ∀ x ∈ g, x ∈ curr ∨ x ∈ ws := by
  intro ws
  induction ws with
  | nil =>
    intro curr currW g hg
    by_cases h : curr = []
    · simp [smartWrapGo, h] at hg
    · simp only [smartWrapGo, h, if_false, List.mem_singleton] at hg
      subst hg
      exact ⟨h, fun x hx => Or.inl hx⟩
  | cons w ws2 ih =>
    intro curr currW g hg
    by_cases hb : curr ≠ [] ∧ maxW < currW + wordWidth cw curr w
    · rw [show smartWrapGo cw maxW (w :: ws2) curr currW =
          curr :: smartWrapGo cw maxW ws2 [w] (measureText cw w) by
        simp [smartWrapGo, hb]] at hg
      rcases List.mem_cons.mp hg with rfl | hg
      · exact ⟨hb.1, fun x hx => Or.inl hx⟩
      · obtain ⟨hne, hmem⟩ := ih [w] (measureText cw w) g hg
        refine ⟨hne, fun x hx => ?_⟩
        rcases hmem x hx with hx1 | hx1
        · exact Or.inr (by simpa using Or.inl (List.mem_singleton.mp hx1))
        · exact Or.inr (List.mem_cons_of_mem w hx1)
    · rw [show smartWrapGo cw maxW (w :: ws2) curr currW =
          smartWrapGo cw maxW ws2 (curr ++ [w]) (currW + wordWidth cw curr w) by
        simp only [smartWrapGo, if_neg hb]] at hg
      obtain ⟨hne, hmem⟩ := ih (curr ++ [w]) (currW + wordWidth cw curr w) g hg
      refine ⟨hne, fun x hx => ?_⟩
      rcases hmem x hx with hx1 | hx1
      · rcases List.mem_append.mp hx1 with hx2 | hx2
        · exact Or.inl hx2
        · exact Or.inr (by simpa using Or.inl (List.mem_singleton.mp hx2))
      · exact Or.inr (List.mem_cons_of_mem w hx1)

theorem smartWrapGo_width (cw : Char → ℕ) (maxW : ℕ) :
    ∀ (ws curr : List (List Char)) (currW : ℕ),
      currW = measureText cw (joinWords curr) →
      (2 ≤ curr.length → currW ≤ maxW) →
      ∀ g ∈ smartWrapGo cw maxW ws curr currW,
        2 ≤ g.length → measureText cw (joinWords g) ≤ maxW := by
  intro ws
  induction ws with
  | nil =>
    intro curr currW hw hlen g hg h2
    by_cases h : curr = []
    · simp [smartWrapGo, h] at hg
    · simp only [smartWrapGo, h, if_false, List.mem_singleton] at hg
      subst hg
      exact hw ▸ hlen h2
  | cons w ws2 ih =>
    intro curr currW hw hlen g hg h2
    by_cases hb : curr ≠ [] ∧ maxW < currW + wordWidth cw curr w
    · rw [show smartWrapGo cw maxW (w :: ws2) curr currW =
          curr :: smartWrapGo cw maxW ws2 [w] (measureText cw w) by
        simp [smartWrapGo, hb]] at hg
      rcases List.mem_cons.mp hg with rfl | hg
      · exact hw ▸ hlen h2
      · refine ih [w] (measureText cw w) rfl (by simp) g hg h2
    · rw [show smartWrapGo cw maxW (w :: ws2) curr currW =
          smartWrapGo cw maxW ws2 (curr ++ [w]) (currW + wordWidth cw curr w) by
        simp only [smartWrapGo, if_neg hb]] at hg
      by_cases hc : curr = []
      · subst hc
        refine ih [w] (0 + wordWidth cw [] w) ?_ (by simp) g ?_ h2
        · simp [wordWidth, joinWords]
        · rw [hw] at hg
          simpa [measureText, joinWords] using hg
      · push_neg at hb
        have hfit : currW + wordWidth cw curr w ≤ maxW := hb hc
        refine ih (curr ++ [w]) (currW + wordWidth cw curr w) ?_ (fun _ => hfit) g hg h2
        rw [hw, measureText_joinWords_append cw curr w hc]
        simp [wordWidth, hc, measureText_append, measureText]
        omega

/-- C2: every line produced by the pixel wrapper measures at most `maxW`, or
it consists of a single word that alone measures wider than `maxW`. -/
theorem wrap_width_correct (cw : Char → ℕ) (maxW : ℕ) (text : List Char) :
    ∀ line ∈ smart_wrap_text cw maxW text,
      measureText cw line ≤ maxW ∨
      ∃ w, pySplit line = [w] ∧ maxW < measureText cw w := by
  intro line hline
  unfold smart_wrap_text at hline
  rcases List.mem_map.mp hline with ⟨g, hg, rfl⟩
  obtain ⟨hgne, hmem⟩ := smartWrapGo_mem cw maxW (pySplit text) [] 0 g hg
  have hwords : ∀ x ∈ g, x ≠ [] ∧ ∀ c ∈ x, c.isWhitespace = false := by
    intro x hx
    rcases hmem x hx with h | h
    · simp at h
    · exact pySplit_words text x h
  have hsplit : pySplit (joinWords g) = g := pySplit_joinWords g hgne hwords
  rcases g with _ | ⟨w, g2⟩
  · exact absurd rfl hgne
  rcases g2 with _ | ⟨w2, g3⟩
  · rcases le_or_lt (measureText cw (joinWords [w])) maxW with h | h
    · exact Or.inl h
    · refine Or.inr ⟨w, hsplit, ?_⟩
      simpa [joinWords] using h
  · refine Or.inl (smartWrapGo_width cw maxW (pySplit text) [] 0 rfl (by simp) _ hg ?_)
    simp only [List.length_cons]
    omega

/-- Witness for C2: glyphs 10 px wide, `maxW = 25`, three 2-glyph words. -/
theorem wrap_width_correct_witness :
    (['a', 'b'] ∈ smart_wrap_text (fun _ => 10) 25 ['a', 'b', ' ', 'c', 'd', ' ', 'e', 'f']) ∧
    (measureText (fun _ => 10) ['a', 'b'] ≤ 25 ∨
      ∃ w, pySplit ['a', 'b'] = [w] ∧ 25 < measureText (fun _ => 10) w) :=
  ⟨by decide,
   wrap_width_correct (fun _ => 10) 25 ['a', 'b', ' ', 'c', 'd', ' ', 'e', 'f']
     ['a', 'b'] (by decide)⟩

theorem joinWords_ne_nil (g : List (List Char)) (hg : g ≠ [])
    (hw : ∀ x ∈ g, x ≠ []) : joinWords g ≠ [] := by
  rcases g with _ | ⟨w, g2⟩
  · exact absurd rfl hg
  rcases g2 with _ | ⟨w2, g3⟩
  · exact hw w (by simp)
  · rw [joinWords_cons w _ (by simp)]
    simp

theorem map_pySplit_joinWords (gs : List (List (List Char)))
    (h : ∀ g ∈ gs, g ≠ [] ∧ ∀ x ∈ g, x ≠ [] ∧ ∀ c ∈ x, c.isWhitespace = false) :
    gs.map (fun g => pySplit (joinWords g)) = gs := by
  induction gs with
  | nil => rfl
  | cons g gs2 ih =>
    simp only [List.map_cons]
    rw [pySplit_joinWords g (h g (by simp)).1 (h g (by simp)).2,
      ih (fun x hx => h x (by simp [hx]))]

/-- C8: the wrapper never splits a word — every returned line is non-empty,
and re-splitting the returned lines on whitespace, in order, reproduces
exactly the whitespace-split word sequence of the input text. -/
theorem wrap_never_splits_words (cw : Char → ℕ) (maxW : ℕ) (text : List Char) :
    (∀ line ∈ smart_wrap_text cw maxW text, line ≠ []) ∧
    ((smart_wrap_text cw maxW text).map pySplit).flatten = pySplit text := by
  have hmemAll : ∀ g ∈ smartWrapGo cw maxW (pySplit text) [] 0,
      g ≠ [] ∧ ∀ x ∈ g, x ≠ [] ∧ ∀ c ∈ x, c.isWhitespace = false := by
    intro g hg
    obtain ⟨hgne, hmem⟩ := smartWrapGo_mem cw maxW (pySplit text) [] 0 g hg
    refine ⟨hgne, fun x hx => ?_⟩
    rcases hmem x hx with h | h
    · simp at h
    · exact pySplit_words text x h
  constructor
  · intro line hline
    rcases List.mem_map.mp hline with ⟨g, hg, rfl⟩
    obtain ⟨hgne, hw⟩ := hmemAll g hg
    exact joinWords_ne_nil g hgne (fun x hx => (hw x hx).1)
  · unfold smart_wrap_text
    rw [List.map_map]
    have hcomp : (smartWrapGo cw maxW (pySplit text) [] 0).map (pySplit ∘ joinWords) =
        smartWrapGo cw maxW (pySplit text) [] 0 := by
      simpa [Function.comp] using
        map_pySplit_joinWords (smartWrapGo cw maxW (pySplit text) [] 0) hmemAll
    rw [hcomp, smartWrapGo_join]
    simp

/-- Witness for C8 on a concrete two-word text. -/
theorem wrap_never_splits_words_witness :
    (['a', 'b'] : List Char) ≠ [] ∧
    ((smart_wrap_text (fun _ => 10) 25 ['a', 'b', ' ', 'c', 'd']).map pySplit).flatten =
      pySplit ['a', 'b', ' ', 'c', 'd'] :=
  ⟨(wrap_never_splits_words (fun _ => 10) 25 ['a', 'b', ' ', 'c', 'd']).1
     ['a', 'b'] (by decide),
   (wrap_never_splits_words (fun _ => 10) 25 ['a', 'b', ' ', 'c', 'd']).2⟩

/-! ### Keyword-highlight run splitting (`add_text_to_image`, main.py
lines 855–905)

The regex `"([^"]+)"` is matched left-to-right and non-overlapping
(`re.finditer` semantics): at a position holding `"` the greedy `[^"]+` run
extends to the next quote, which must close the match; an empty run or a
missing closing quote fails and the scan advances one position.  The parts
list is built exactly as in the code: unmatched text in white (`false`),
each match's inner text highlighted (`true`). -/

/-- First regex match of `"([^"]+)"` in the list:
`some (textBefore, innerText, textAfterMatch)`, or `none`. -/
def matchQuote : List Char → Option (List Char × List Char × List Char)
  | [] => none
  | c :: rest =>
    if c = '"' then
      match rest.dropWhile (fun d => d ≠ '"') with
      | [] => none
      | _ :: rest3 =>
        if rest.takeWhile (fun d => d ≠ '"') = [] then
          (matchQuote rest).map (fun t => (c :: t.1, t.2.1, t.2.2))
        else some ([], rest.takeWhile (fun d => d ≠ '"'), rest3)
    else (matchQuote rest).map (fun t => (c :: t.1, t.2.1, t.2.2))

/-- The `parts` construction of the drawing loop, as a function of the
remaining matches; `fuel` bounds the number of matches left (each match
consumes at least two characters, so `cs.length` is enough fuel). -/
def greenPartsGo : ℕ → List Char → List (List Char × Bool)
  | 0, _ => []
  | fuel + 1, cs =>
    match matchQuote cs with
    | none => if cs = [] then [] else [(cs, false)]
    | some (pre, inner, rest) =>
      (if pre = [] then [] else [(pre, false)]) ++ (inner, true) :: greenPartsGo fuel rest

/-- The ordered (text, isHighlighted) run sequence the code draws for one
line: white parts between matches, highlighted parts for each quoted match,
quote characters stripped. -/
def greenParts (cs : List Char) : List (List Char × Bool) :=
  greenPartsGo cs.length cs

theorem matchQuote_none (cs : List Char) (h : ∀ c ∈ cs, c ≠ '"') :
    matchQuote cs = none := by
  induction cs with
  | nil => rfl
  | cons c rest ih =>
    have hc : c ≠ '"' := h c (by simp)
    simp only [matchQuote, if_neg hc]
    rw [ih (fun x hx => h x (by simp [hx]))]
    rfl

theorem takeWhile_dropWhile_boundary (p : Char → Bool) :
    ∀ (xs : List Char) (y : Char) (ys : List Char),
      (∀ x ∈ xs, p x = true) → p y = false →
      (xs ++ y :: ys).takeWhile p = xs ∧ (xs ++ y :: ys).dropWhile p = y :: ys := by
  intro xs
  induction xs with
  | nil =>
    intro y ys _ hy
    simp [List.takeWhile_cons, List.dropWhile_cons, hy]
  | cons x xs2 ih =>
    intro y ys hall hy
    have hx : p x = true := hall x (by simp)
    have := ih y ys (fun a ha => hall a (by simp [ha])) hy
    simp [List.takeWhile_cons, List.dropWhile_cons, hx, this.1, this.2]

theorem matchQuote_exact :
    ∀ (before X after : List Char), (∀ c ∈ before, c ≠ '"') → X ≠ [] →
      (∀ c ∈ X, c ≠ '"') →
      matchQuote (before ++ '"' :: (X ++ '"' :: after)) = some (before, X, after) := by
  intro before
  induction before with
  | nil =>
    intro X after _ hX hXq
    show matchQuote ('"' :: (X ++ '"' :: after)) = _
    have htd := takeWhile_dropWhile_boundary (fun d => d ≠ '"') X '"' after
      (fun x hx => by simpa using hXq x hx) (by simp)
    simp only [matchQuote, if_pos rfl]
    rw [htd.1, htd.2]
    simp [hX]
  | cons b before2 ih =>
    intro X after hb hX hXq
    have hbq : b ≠ '"' := hb b (by simp)
    show matchQuote (b :: (before2 ++ '"' :: (X ++ '"' :: after))) = _
    simp only [matchQuote, if_neg hbq]
    rw [ih X after (fun x hx => hb x (by simp [hx])) hX hXq]
    rfl

theorem greenPartsGo_none (fuel : ℕ) (cs : List Char) (h : matchQuote cs = none) :
    greenPartsGo (fuel + 1) cs = if cs = [] then [] else [(cs, false)] := by
  simp [greenPartsGo, h]

theorem greenPartsGo_some (fuel : ℕ) (cs pre inner rest : List Char)
    (h : matchQuote cs = some (pre, inner, rest)) :
    greenPartsGo (fuel + 1) cs =
      (if pre = [] then [] else [(pre, false)]) ++ (inner, true) :: greenPartsGo fuel rest := by
  simp [greenPartsGo, h]

/-- C3: for a line containing exactly one double-quoted substring `"X"`
(`X` non-empty, no other quote characters on the line), the run sequence has
exactly one highlighted run, whose text is `X` with the quotes stripped, and
the in-order concatenation of all runs reproduces the line with the quote
characters removed (all remaining runs carry the unhighlighted color). -/
theorem highlight_runs (before X after : List Char)
    (hb : ∀ c ∈ before, c ≠ '"') (hX : X ≠ []) (hXq : ∀ c ∈ X, c ≠ '"')
    (ha : ∀ c ∈ after, c ≠ '"') :
    ((greenParts (before ++ '"' :: (X ++ '"' :: after))).filter
        (fun p => p.2)).map Prod.fst = [X] ∧
    ((greenParts (before ++ '"' :: (X ++ '"' :: after))).map Prod.fst).flatten =
      (before ++ '"' :: (X ++ '"' :: after)).filter (fun c => c ≠ '"') := by
  have hlen : (before ++ '"' :: (X ++ '"' :: after)).length =
      (before.length + X.length + after.length + 1) + 1 := by
    simp [List.length_append]
    omega
  have hgp : greenParts (before ++ '"' :: (X ++ '"' :: after)) =
      (if before = [] then [] else [(before, false)]) ++ (X, true) ::
        (if after = [] then [] else [(after, false)]) := by
    unfold greenParts
    rw [hlen, greenPartsGo_some _ _ before X after
        (matchQuote_exact before X after hb hX hXq),
      greenPartsGo_none _ after (matchQuote_none after ha)]
  have hfb : before.filter (fun c => !decide (c = '"')) = before :=
    List.filter_eq_self.mpr (fun a haa => by simp [hb a haa])
  have hfX : X.filter (fun c => !decide (c = '"')) = X :=
    List.filter_eq_self.mpr (fun a haa => by simp [hXq a haa])
  have hfa : after.filter (fun c => !decide (c = '"')) = after :=
    List.filter_eq_self.mpr (fun a haa => by simp [ha a haa])
  rw [hgp]
  by_cases hbe : before = [] <;> by_cases hae : after = [] <;>
    simp [hbe, hae, hfb, hfX, hfa, List.filter_append]

/-- Witness for C3: the line `ab "cd" e` — one quoted keyword `cd`. -/
theorem highlight_runs_witness :
    (['c', 'd'] : List Char) ≠ [] ∧
    ((greenParts (['a', 'b', ' '] ++ '"' :: (['c', 'd'] ++ '"' :: [' ', 'e']))).filter
        (fun p => p.2)).map Prod.fst = [['c', 'd']] :=
  ⟨by decide,
   (highlight_runs ['a', 'b', ' '] ['c', 'd'] [' ', 'e']
     (by decide) (by decide) (by decide) (by decide)).1⟩

/-! ### Frame-border detection (`add_text_to_image`, main.py lines 449–518,
identically `text_overlay.add_text_to_image_old` lines 243–312)

A frame image is its RGBA alpha channel plus its dimensions; a pixel read
returning `none` models a `getpixel` exception, which the per-point
`try/except` turns into "no sample from this point".  Python's list `sort()`
is modelled by `List.insertionSort (· ≤ ·)` (on integers the sorted list is
unique, so the algorithm choice is immaterial). -/

/-- Decoded frame image: alpha channel and dimensions (`frame_rgba`). -/
structure FrameImg where
  alpha : ℤ → ℤ → Option ℤ
  w : ℤ
  h : ℤ

/-- Python `range(start, stop, step)` for `step > 0`. -/
def pyRangeAsc (start stop step : ℤ) : List ℤ :=
  (List.range ((stop - start + step - 1) / step).toNat).map (fun k => start + k * step)

/-- Python `range(start, stop, -step)` for `step > 0`. -/
def pyRangeDesc (start stop step : ℤ) : List ℤ :=
  (List.range ((start - stop + step - 1) / step).toNat).map (fun k => start - k * step)

/-- The inward scan: walk the sample positions, break when `stop` holds
(image bound reached), abort on a pixel read error, and return the first
position whose alpha is below the opacity threshold (100). -/
def scanFirstHit (stop : ℤ → Bool) (px : ℤ → Option ℤ) : List ℤ → Option ℤ
  | [] => none
  | i :: rest =>
    if stop i then none
    else
      match px i with
      | none => none
      | some a => if a < 100 then some i else scanFirstHit stop px rest

/-- Processing of one edge point `(x, y)`: bounds check, opacity gate
(`a > 100`), then the inward scan along the branch selected by the
`x <= 5` / `x >= width-5` / `y <= 5` / `y >= height-5` chain; the recorded
sample is the inward distance.  A `none` is "no sample collected". -/
def samplePoint (f : FrameImg) (w h : ℤ) (p : ℤ × ℤ) : Option ℤ :=
  if p.1 < f.w ∧ p.2 < f.h then
    match f.alpha p.1 p.2 with
    | none => none
    | some a =>
      if 100 < a then
        if p.1 ≤ 5 then
          scanFirstHit (fun i => f.w ≤ i) (fun i => f.alpha i p.2) (pyRangeAsc 20 150 5)
        else if w - 5 ≤ p.1 then
          (scanFirstHit (fun i => i < 0) (fun i => f.alpha i p.2)
            (pyRangeDesc (w - 20) (w - 150) 5)).map (fun i => w - i)
        else if p.2 ≤ 5 then
          scanFirstHit (fun i => f.h ≤ i) (fun i => f.alpha p.1 i) (pyRangeAsc 20 150 5)
        else if h - 5 ≤ p.2 then
          (scanFirstHit (fun i => i < 0) (fun i => f.alpha p.1 i)
            (pyRangeDesc (h - 20) (h - 150) 5)).map (fun i => h - i)
        else none
      else none
  else none

/-- The four sampled edges: top, bottom, left, right (in code order). -/
def edgePoints (w h : ℤ) : List (ℤ × ℤ) :=
  ((pyRangeAsc 0 w (w / 10)).map (fun i => (i, (5 : ℤ)))) ++
  ((pyRangeAsc 0 w (w / 10)).map (fun i => (i, h - 5))) ++
  ((pyRangeAsc 0 h (h / 10)).map (fun i => ((5 : ℤ), i))) ++
  ((pyRangeAsc 0 h (h / 10)).map (fun i => (w - 5, i)))

/-- `border_samples` after the sampling loops. -/
def borderSamples (f : FrameImg) (w h : ℤ) : List ℤ :=
  (edgePoints w h).filterMap (samplePoint f w h)

/-- Upper median: element at index `len // 2` of the sorted list (Python's
`border_samples.sort(); border_samples[len(border_samples)//2]`). -/
def medianUpper (l : List ℤ) : ℤ :=
  (List.insertionSort (· ≤ ·) l).getD (l.length / 2) 0

/-- `frame_border_width`: 0 with no frame file; with a frame file, the sorted
samples' upper median plus the 20 px safety margin, or the 60 px conservative
default when no sample was collected. -/
def frameBorderWidth (f : FrameImg) (w h : ℤ) (frameOnDisk : Bool) : ℤ :=
  if frameOnDisk then
    if borderSamples f w h ≠ [] then
      (List.insertionSort (· ≤ ·) (borderSamples f w h)).getD
        ((borderSamples f w h).length / 2) 0 + 20
    else 60
  else 0

/-- C6: with at least one collected sample the detector returns the median of
the samples plus 20 px (and that median is one of the collected samples);
with a frame file but no samples it returns 60 px; with no frame file the
border width is 0. -/
theorem border_detection_result (f : FrameImg) (w h : ℤ) :
    (borderSamples f w h ≠ [] →
      frameBorderWidth f w h true = medianUpper (borderSamples f w h) + 20 ∧
      medianUpper (borderSamples f w h) ∈ borderSamples f w h) ∧
    (borderSamples f w h = [] → frameBorderWidth f w h true = 60) ∧
    frameBorderWidth f w h false = 0 := by
  refine ⟨?_, ?_, rfl⟩
  · intro hne
    refine ⟨by simp [frameBorderWidth, medianUpper, hne], ?_⟩
    have hlt : (borderSamples f w h).length / 2 <
        (List.insertionSort (· ≤ ·) (borderSamples f w h)).length := by
      rw [List.length_insertionSort]
      exact Nat.div_lt_self (List.length_pos.mpr hne) (by norm_num)
    unfold medianUpper
    rw [List.getD_eq_getElem _ _ hlt]
    exact (List.mem_insertionSort _).mp (List.getElem_mem _)
  · intro he
    simp [frameBorderWidth, he]

/-- Witness frame for C6: a 60×60 canvas whose frame is a fully opaque
30 px top band over a transparent interior. -/
def exFrame : FrameImg :=
  ⟨fun _ y => some (if y < 30 then 255 else 0), 60, 60⟩

/-- Witness for C6: the example frame yields samples, and the detector
returns their median plus 20. -/
theorem border_detection_result_witness :
    borderSamples exFrame 60 60 ≠ [] ∧
    frameBorderWidth exFrame 60 60 true = medianUpper (borderSamples exFrame 60 60) + 20 :=
  ⟨by decide, ((border_detection_result exFrame 60 60).1 (by decide)).1⟩

/-! ### Asset loading and error propagation (`add_text_to_image`, main.py)

Control-flow skeleton of a call, with image decodes as parameters:
`Image.open(frame_path)` + `convert('RGBA')` during border detection
(main.py lines 451–455) is *outside* any `try/except`, so a frame file that
exists but fails to decode propagates and no output is written.  The logo
block (lines 530–562) and the final frame compositing (lines 926–956) are
inside `try/except` and degrade to "asset absent".  `Except.error ()` is an
uncaught exception (no output file); `Except.ok` is a written output. -/

/-- Outcome of a completed overlay call (output file written): the detected
border width, and whether the logo / frame layers were composited. -/
structure OverlayOutput where
  borderWidth : ℤ
  logoApplied : Bool
  frameApplied : Bool

/-- The asset phase of `add_text_to_image`: `frameOnDisk` is
`os.path.exists(frame_path)`; `frameDecoded` is the result of decoding it
(`none` = decode exception); `logoOnDisk`/`logoDecodes` likewise for the
logo, whose decode failure is caught. -/
def add_text_assets (w h : ℤ) (frameOnDisk : Bool) (frameDecoded : Option FrameImg)
    (logoOnDisk : Bool) (logoDecodes : Bool) : Except Unit OverlayOutput :=
  if frameOnDisk then
    match frameDecoded with
    | none => Except.error ()
    | some f => Except.ok ⟨frameBorderWidth f w h true, logoOnDisk && logoDecodes, true⟩
  else Except.ok ⟨0, logoOnDisk && logoDecodes, false⟩

/-- C5 counterexample: a frame file that exists but fails to decode makes the
call raise during the border-detection step (the `Image.open` there is not
guarded), so no output image is written — contradicting the claim that a
corrupt frame is caught and treated as absent. -/
theorem frame_decode_failure_raises :
    add_text_assets 1080 1920 true none false false = Except.error () := rfl

/-- C5 amended: a *logo* decode failure is caught and treated as
asset-missing (the call still completes, merely without the logo layer), and
once the frame has decoded, the per-pixel sampling is total (pixel read
errors yield no sample, never an exception); but a *frame* file that exists
and fails to decode raises out of the call before detection and no output is
written. -/
theorem asset_failure_semantics (w h : ℤ) (f : FrameImg) (fdec : Option FrameImg)
    (ld ldec : Bool) :
    add_text_assets w h true none ld ldec = Except.error () ∧
    add_text_assets w h true (some f) ld ldec =
      Except.ok ⟨frameBorderWidth f w h true, ld && ldec, true⟩ ∧
    add_text_assets w h false fdec ld ldec = Except.ok ⟨0, ld && ldec, false⟩ :=
  ⟨rfl, rfl, rfl⟩
